import Mathlib

/-!
Verification of the simple projection operator
(`pkg/sql/colexec/simple_project.go`).

The Go code is embedded shallowly:

* `coldata.Vec` references are modelled by identities (`Vec := Nat`);
  reference equality of vectors is equality of identities.
* `coldata.Batch` references are modelled by identities (`BatchId := Nat`)
  together with a heap `BatchHeap` mapping each batch identity to its
  current list of columns (each column carrying its `coltypes.T` and the
  identity of its vector).
* `projectingBatch` is a structure holding the wrapped batch reference
  (`Option BatchId`, `none` being Go's nil embedded `coldata.Batch`) and
  its own projection slice, copied at construction.
* `simpleProjectOp` holds the projection slice, the `batches` map
  (an association list keyed by batch identity, matching Go map
  semantics for the lookups and insertions the code performs), a heap of
  the `projectingBatch` views it allocated (keyed by an allocation
  counter, so that reference equality of views is equality of their
  identifiers) and the logging threshold.
* `log.V(1)` is modelled by a boolean `verbose` flag; emitting the
  diagnostic line is modelled by the `logged` flag of a pull's outcome.
-/

namespace SimpleProject

/-- Identity of a `coldata.Vec` (reference equality = equality). -/
abbrev Vec := Nat

/-- Identity of a `coldata.Batch` (reference equality = equality). -/
abbrev BatchId := Nat

/-- A `coltypes.T` value, abstract. -/
abbrev ColType := Nat

/-- One physical column of an underlying batch: its type and the identity
of its column vector. -/
structure Column where
  typ : ColType
  vec : Vec
deriving DecidableEq

/-- The mutable contents of all underlying batches: each batch identity
maps to its current ordered list of columns. -/
abbrev BatchHeap := BatchId → List Column

/-- Pointwise update of a batch heap at one batch identity. -/
def updateFn (h : BatchHeap) (b : BatchId) (cols : List Column) : BatchHeap :=
  fun b' => if b' = b then cols else h b'

/-- The `coldata.Batch.ColVec` operation on an underlying batch: the vector of column
`i`, `none` when out of range (Go would fault). -/
def batchColVec (h : BatchHeap) (b : BatchId) (i : Nat) : Option Vec :=
  ((h b).get? i).map Column.vec

/-- The `coldata.Batch.Width` of an underlying batch. -/
def batchWidth (h : BatchHeap) (b : BatchId) : Nat :=
  (h b).length

/-- The `coldata.Batch.AppendCol` operation: appends a fresh column of type `t` to batch
`b`; `freshVec` is the identity of the newly allocated vector. -/
def batchAppendCol (h : BatchHeap) (freshVec : Vec) (b : BatchId) (t : ColType) : BatchHeap :=
  updateFn h b (h b ++ [⟨t, freshVec⟩])

/-- The error raised by `execerror.VectorizedInternalPanic`. -/
inductive ExecError where
  | vectorizedInternalPanic (msg : String)
deriving DecidableEq

/-- Embeds `execerror.VectorizedInternalPanic`: aborts with an internal error. -/
def vectorizedInternalPanic {α : Type} (msg : String) : Except ExecError α :=
  .error (.vectorizedInternalPanic msg)

/-- The `projectingBatch` type: a view applying a simple projection to an
underlying batch. `batch` is the embedded `coldata.Batch` reference
(`none` = Go nil, before the first repoint); `projection` is the view's
own projection slice. -/
structure ProjectingBatch where
  batch : Option BatchId
  projection : List Nat
deriving DecidableEq

/-- Embeds `newProjectionBatch`: allocates a view with a copy of `projection`
and a nil embedded batch. -/
def newProjectionBatch (projection : List Nat) : ProjectingBatch :=
  { batch := none, projection := projection }

/-- Embeds `projectingBatch.ColVec`, that is `b.Batch.ColVec(int(b.projection[i]))`.
Out-of-range access (a Go fault) is `none`. -/
def ColVec (h : BatchHeap) (v : ProjectingBatch) (i : Nat) : Option Vec :=
  match v.batch with
  | none => none
  | some b => (v.projection.get? i).bind fun j => batchColVec h b j

/-- Embeds `projectingBatch.ColVecs`: always fails with
`VectorizedInternalPanic`. -/
def ColVecs (_v : ProjectingBatch) : Except ExecError (List Vec) :=
  vectorizedInternalPanic "projectingBatch does not support ColVecs()"

/-- Embeds `projectingBatch.Width`: the length of the view's projection slice. -/
def Width (v : ProjectingBatch) : Nat :=
  v.projection.length

/-- Embeds `projectingBatch.AppendCol`: appends a column of type `t` to the
wrapped batch, then appends the wrapped batch's new last column index
(`uint32(b.Batch.Width())-1`) to the view's projection slice. A nil
wrapped batch (a Go fault) is left unchanged. -/
def AppendCol (h : BatchHeap) (freshVec : Vec) (v : ProjectingBatch) (t : ColType) :
    BatchHeap × ProjectingBatch :=
  match v.batch with
  | none => (h, v)
  | some b =>
      let h' := batchAppendCol h freshVec b t
      (h', { v with projection := v.projection ++ [batchWidth h' b - 1] })

/-- Association-list lookup with Go map semantics at the keys used. -/
def assocLookup {α : Type} (l : List (Nat × α)) (k : Nat) : Option α :=
  match l with
  | [] => none
  | (k', v) :: rest => if k' = k then some v else assocLookup rest k

/-- Update the entry with key `k` in place (heap mutation of the object
the entry points at). -/
def updateAssoc {α : Type} (l : List (Nat × α)) (k : Nat) (f : α → α) : List (Nat × α) :=
  l.map fun p => if p.1 = k then (p.1, f p.2) else p

/-- The `simpleProjectOp` state: projection slice (copied at construction), the
`batches` cache keyed by batch identity, the heap of views this operator
allocated (keyed by allocation order, `nextViewId` being the allocation
counter), and the logging threshold. `input` is the identity of the
upstream operator held by `OneInputNode`. -/
structure SimpleProjectOp where
  input : Nat
  projection : List Nat
  batches : List (BatchId × Nat)
  views : List (Nat × ProjectingBatch)
  nextViewId : Nat
  numBatchesLoggingThreshold : Nat
deriving DecidableEq

/-- An `Operator`: either the upstream operator returned unchanged by the
construction fast path, or a freshly allocated `simpleProjectOp`. -/
inductive Operator where
  | source (id : Nat)
  | project (op : SimpleProjectOp)
deriving DecidableEq

/-- The loop computing `projectionIsRedundant` in `NewSimpleProjectOp`,
with `k` the index of the first element of the remaining slice. -/
def projectionIsRedundantFrom (k : Nat) (projection : List Nat) : Bool :=
  match projection with
  | [] => true
  | x :: rest => (x == k) && projectionIsRedundantFrom (k + 1) rest

/-- The freshly allocated operator state built by `NewSimpleProjectOp`
(projection copied, empty cache, threshold 128). -/
def newSimpleProjectOpState (input : Nat) (projection : List Nat) : SimpleProjectOp :=
  { input := input
    projection := projection
    batches := []
    views := []
    nextViewId := 0
    numBatchesLoggingThreshold := 128 }

/-- Embeds `NewSimpleProjectOp`: returns `input` itself when the projection is
the identity over `numInputCols` columns, else a new operator. -/
def NewSimpleProjectOp (input : Nat) (numInputCols : Nat) (projection : List Nat) : Operator :=
  if (numInputCols == projection.length) && projectionIsRedundantFrom 0 projection then
    .source input
  else
    .project (newSimpleProjectOpState input projection)

/-- Repointing a view at batch `b` (`projBatch.Batch = batch`). -/
def repoint (b : BatchId) (v : ProjectingBatch) : ProjectingBatch :=
  { v with batch := some b }

/-- Outcome of one `Next` call: the operator state after the pull, the
identity of the returned view, and whether the diagnostic log line was
emitted. -/
structure PullOutcome where
  op : SimpleProjectOp
  retView : Nat
  logged : Bool
deriving DecidableEq

/-- Embeds `simpleProjectOp.Next`; `batch` is the batch the upstream returned on
this pull; `verbose` models `log.V(1)`. On a miss a view is allocated,
inserted and the threshold logic runs; in both cases the view is
repointed at `batch` before being returned. -/
def Next (d : SimpleProjectOp) (verbose : Bool) (batch : BatchId) : PullOutcome :=
  match assocLookup d.batches batch with
  | some vid =>
      { op := { d with views := updateAssoc d.views vid (repoint batch) }
        retView := vid
        logged := false }
  | none =>
      let vid := d.nextViewId
      let projBatch := newProjectionBatch d.projection
      let batches' := (batch, vid) :: d.batches
      let d' : SimpleProjectOp :=
        { d with
          batches := batches'
          views := (vid, projBatch) :: d.views
          nextViewId := vid + 1
          numBatchesLoggingThreshold :=
            if batches'.length = d.numBatchesLoggingThreshold then
              d.numBatchesLoggingThreshold * 2
            else
              d.numBatchesLoggingThreshold }
      { op := { d' with views := updateAssoc d'.views vid (repoint batch) }
        retView := vid
        logged := (batches'.length == d.numBatchesLoggingThreshold) && verbose }

/-- The operator state after pulling the batches `bs` in order. -/
def opAfter (verbose : Bool) (d : SimpleProjectOp) (bs : List BatchId) : SimpleProjectOp :=
  match bs with
  | [] => d
  | b :: rest => opAfter verbose (Next d verbose b).op rest

/-- The operator state just before pull number `t` of the run `bs`. -/
def opAt (verbose : Bool) (d : SimpleProjectOp) (bs : List BatchId) (t : Nat) : SimpleProjectOp :=
  opAfter verbose d (List.take t bs)

/-- The outcome of pull number `t` of the run `bs`. -/
def pullAt (verbose : Bool) (d : SimpleProjectOp) (bs : List BatchId) (t : Nat) : PullOutcome :=
  Next (opAt verbose d bs t) verbose (bs.getD t 0)

/-- The identity projection condition of the construction fast path. -/
def isIdentityProjection (numInputCols : Nat) (P : List Nat) : Prop :=
  numInputCols = P.length ∧ ∀ i ∈ List.range P.length, P.get? i = some i

instance (n : Nat) (P : List Nat) : Decidable (isIdentityProjection n P) :=
  inferInstanceAs (Decidable (_ ∧ _))

/-- Invariant of the operator state reachable by pulls from a fresh
operator: cache keys are distinct, view keys are distinct and below the
allocation counter, every cache entry points at an allocated view whose
projection is the operator's projection and whose wrapped batch is the
entry's key, and no two cache entries share a view. -/
def WF (d : SimpleProjectOp) : Prop :=
  (d.batches.map Prod.fst).Nodup
  ∧ (d.views.map Prod.fst).Nodup
  ∧ (∀ vid ∈ d.views.map Prod.fst, vid < d.nextViewId)
  ∧ (∀ b vid, assocLookup d.batches b = some vid →
      ∃ v, assocLookup d.views vid = some v
        ∧ v.projection = d.projection ∧ v.batch = some b)
  ∧ (∀ b1 b2 vid, assocLookup d.batches b1 = some vid →
      assocLookup d.batches b2 = some vid → b1 = b2)

/-- Threshold invariant along a run: the cache is strictly below the
threshold and the threshold is 128 times a power of two. -/
def ThrInv (d : SimpleProjectOp) : Prop :=
  d.batches.length < d.numBatchesLoggingThreshold
  ∧ ∃ k, d.numBatchesLoggingThreshold = 128 * 2 ^ k

/-! ### The projection slice as a mutable caller buffer -/

/-- A heap of `[]uint32` slices, identified in allocation order;
`fresh` is the next unallocated identity. -/
structure SliceHeap where
  slices : Nat → List Nat
  fresh : Nat

/-- Overwriting the contents of slice `sid` (the caller mutating or
reusing its buffer). -/
def writeSlice (h : SliceHeap) (sid : Nat) (contents : List Nat) : SliceHeap :=
  { h with slices := fun s => if s = sid then contents else h.slices s }

/-- Go `make([]uint32, len(src))` followed by `copy`: allocates a fresh
slice holding a copy of `src`; returns the heap and the new identity. -/
def makeCopySlice (h : SliceHeap) (src : List Nat) : SliceHeap × Nat :=
  ({ slices := fun s => if s = h.fresh then src else h.slices s, fresh := h.fresh + 1 },
   h.fresh)

/-- The operator as allocated on the slice heap: it holds its own slice
identity `projSlice`, never the caller's. -/
structure SimpleProjectOpRef where
  input : Nat
  projSlice : Nat
deriving DecidableEq

/-- Embeds `NewSimpleProjectOp` over the slice heap: reads the caller's
projection slice, runs the identity fast path, and otherwise allocates
the operator with a make-and-copy of the caller's slice (`none` = the
input operator is returned unchanged, nothing allocated). -/
def NewSimpleProjectOpOnHeap (h : SliceHeap) (input numInputCols : Nat) (projSlice : Nat) :
    SliceHeap × Option SimpleProjectOpRef :=
  let projection := h.slices projSlice
  if (numInputCols == projection.length) && projectionIsRedundantFrom 0 projection then
    (h, none)
  else
    let alloc := makeCopySlice h projection
    (alloc.1, some { input := input, projSlice := alloc.2 })

/-! ### Concrete states used by witnesses -/

/-- The one-column batch heap used by concrete witnesses: batch 3 holds a
single column of type 2 whose vector has identity 9. -/
def witnessHeap : BatchHeap :=
  fun b => if b = 3 then [⟨2, 9⟩] else []

/-- A concrete view over batch 3 exposing its single column. -/
def witnessView : ProjectingBatch :=
  { batch := some 3, projection := [0] }

/-- The operator state used by the C4 witness: one cached batch (5) whose
view has grown an extra projected column (projection `[0, 3]`, wider than
the operator's own projection `[0]`). -/
def c4WitnessOp : SimpleProjectOp :=
  { input := 0
    projection := [0]
    batches := [(5, 0)]
    views := [(0, { batch := some 5, projection := [0, 3] })]
    nextViewId := 1
    numBatchesLoggingThreshold := 128 }

/-- The run used by the C7 witness: 256 distinct batch identities
followed by a repeat of batch 0. -/
def c7WitnessRun : List BatchId :=
  List.range 256 ++ [0]

/-- The slice heap used by the C9 witness: one allocated slice (identity
0) holding `[1]`, a non-identity projection over one input column. -/
def c9WitnessHeap : SliceHeap :=
  { slices := fun s => if s = 0 then [1] else [], fresh := 1 }

/-! ### Basic lemmas -/

theorem projectionIsRedundantFrom_iff (P : List Nat) :
    ∀ k, projectionIsRedundantFrom k P = true ↔
      ∀ i ∈ List.range P.length, P.get? i = some (k + i) := by
  induction P with
  | nil =>
      intro k
      simp [projectionIsRedundantFrom]
  | cons x rest ih =>
      intro k
      simp only [projectionIsRedundantFrom, Bool.and_eq_true, beq_iff_eq, ih (k + 1)]
      constructor
      · rintro ⟨hx, hrest⟩ i hi
        cases i with
        | zero => simp [hx]
        | succ j =>
            have hj : j ∈ List.range rest.length := by
              simp only [List.mem_range, List.length_cons] at hi ⊢
              omega
            have := hrest j hj
            simp only [List.get?_cons_succ, this, Option.some.injEq]
            omega
      · intro hall
        constructor
        · have h0 := hall 0 (by simp [List.mem_range])
          simpa using h0
        · intro j hj
          have hj' : j + 1 ∈ List.range (x :: rest).length := by
            simp only [List.mem_range, List.length_cons] at hj ⊢
            omega
          have := hall (j + 1) hj'
          simp only [List.get?_cons_succ, Option.some.injEq] at this
          simp only [this, Option.some.injEq]
          omega

theorem identity_cond_iff (numInputCols : Nat) (P : List Nat) :
    (((numInputCols == P.length) && projectionIsRedundantFrom 0 P) = true)
      ↔ isIdentityProjection numInputCols P := by
  simp only [Bool.and_eq_true, beq_iff_eq, projectionIsRedundantFrom_iff P 0,
    isIdentityProjection, Nat.zero_add]

/-! ### Association-list lemmas -/

theorem assocLookup_cons {α : Type} (k' : Nat) (v : α) (l : List (Nat × α)) (k : Nat) :
    assocLookup ((k', v) :: l) k = if k' = k then some v else assocLookup l k := rfl

theorem assocLookup_mem_keys {α : Type} (l : List (Nat × α)) (k : Nat) (v : α)
    (h : assocLookup l k = some v) : k ∈ l.map Prod.fst := by
  induction l with
  | nil => simp [assocLookup] at h
  | cons p rest ih =>
      rcases p with ⟨k', v'⟩
      rw [assocLookup_cons] at h
      by_cases hk : k' = k
      · subst hk
        simp
      · rw [if_neg hk] at h
        simpa using Or.inr (ih h)

theorem mem_keys_assocLookup {α : Type} (l : List (Nat × α)) (k : Nat)
    (h : k ∈ l.map Prod.fst) : ∃ v, assocLookup l k = some v := by
  induction l with
  | nil => simp at h
  | cons p rest ih =>
      rcases p with ⟨k', v'⟩
      rw [assocLookup_cons]
      by_cases hk : k' = k
      · exact ⟨v', if_pos hk ▸ rfl⟩
      · rw [if_neg hk]
        apply ih
        simp only [List.map_cons, List.mem_cons] at h
        rcases h with h | h
        · exact absurd h.symm hk
        · exact h

theorem assocLookup_of_not_mem {α : Type} (l : List (Nat × α)) (k : Nat)
    (h : k ∉ l.map Prod.fst) : assocLookup l k = none := by
  cases hv : assocLookup l k with
  | none => rfl
  | some v => exact absurd (assocLookup_mem_keys l k v hv) h

theorem updateAssoc_keys {α : Type} (l : List (Nat × α)) (k : Nat) (f : α → α) :
    (updateAssoc l k f).map Prod.fst = l.map Prod.fst := by
  induction l with
  | nil => rfl
  | cons p rest ih =>
      rcases p with ⟨k', v'⟩
      by_cases hk : k' = k
      · simp [updateAssoc, hk] at ih ⊢
        exact ih
      · simp [updateAssoc, hk] at ih ⊢
        exact ih

theorem updateAssoc_cons_self {α : Type} (k : Nat) (v : α) (l : List (Nat × α)) (f : α → α) :
    updateAssoc ((k, v) :: l) k f = (k, f v) :: updateAssoc l k f := by
  simp [updateAssoc]

theorem updateAssoc_of_not_mem {α : Type} (l : List (Nat × α)) (k : Nat) (f : α → α)
    (h : k ∉ l.map Prod.fst) : updateAssoc l k f = l := by
  induction l with
  | nil => rfl
  | cons p rest ih =>
      rcases p with ⟨k', v'⟩
      simp only [List.map_cons, List.mem_cons] at h
      push_neg at h
      have hk : k' ≠ k := fun he => h.1 he.symm
      have hrest : updateAssoc rest k f = rest := ih h.2
      simp only [updateAssoc, List.map_cons] at hrest ⊢
      rw [if_neg hk]
      rw [hrest]

theorem assocLookup_updateAssoc_self {α : Type} (l : List (Nat × α)) (k : Nat) (f : α → α) :
    assocLookup (updateAssoc l k f) k = (assocLookup l k).map f := by
  induction l with
  | nil => rfl
  | cons p rest ih =>
      rcases p with ⟨k', v'⟩
      by_cases hk : k' = k
      · subst hk
        rw [updateAssoc_cons_self, assocLookup_cons, assocLookup_cons]
        simp [ih]
      · have : updateAssoc ((k', v') :: rest) k f = (k', v') :: updateAssoc rest k f := by
          simp [updateAssoc, hk]
        rw [this, assocLookup_cons, assocLookup_cons, if_neg hk, if_neg hk, ih]

theorem assocLookup_updateAssoc_ne {α : Type} (l : List (Nat × α)) (k k' : Nat) (f : α → α)
    (h : k' ≠ k) : assocLookup (updateAssoc l k f) k' = assocLookup l k' := by
  induction l with
  | nil => rfl
  | cons p rest ih =>
      rcases p with ⟨k0, v0⟩
      by_cases hk : k0 = k
      · subst hk
        have hne : k0 ≠ k' := fun he => h he.symm
        rw [updateAssoc_cons_self, assocLookup_cons, assocLookup_cons, if_neg hne, if_neg hne]
        exact ih
      · have : updateAssoc ((k0, v0) :: rest) k f = (k0, v0) :: updateAssoc rest k f := by
          simp [updateAssoc, hk]
        rw [this, assocLookup_cons, assocLookup_cons, ih]

/-! ### Step characterizations of `Next` -/

theorem next_hit (d : SimpleProjectOp) (verbose : Bool) (batch : BatchId) (vid : Nat)
    (h : assocLookup d.batches batch = some vid) :
    Next d verbose batch =
      { op := { d with views := updateAssoc d.views vid (repoint batch) }
        retView := vid
        logged := false } := by
  unfold Next
  rw [h]

theorem next_miss (d : SimpleProjectOp) (verbose : Bool) (batch : BatchId)
    (h : assocLookup d.batches batch = none) :
    Next d verbose batch =
      { op := { d with
                batches := (batch, d.nextViewId) :: d.batches
                views := updateAssoc ((d.nextViewId, newProjectionBatch d.projection) :: d.views)
                           d.nextViewId (repoint batch)
                nextViewId := d.nextViewId + 1
                numBatchesLoggingThreshold :=
                  if d.batches.length + 1 = d.numBatchesLoggingThreshold then
                    d.numBatchesLoggingThreshold * 2
                  else
                    d.numBatchesLoggingThreshold }
        retView := d.nextViewId
        logged := (d.batches.length + 1 == d.numBatchesLoggingThreshold) && verbose } := by
  unfold Next
  rw [h]
  simp

theorem next_projection (d : SimpleProjectOp) (verbose : Bool) (batch : BatchId) :
    (Next d verbose batch).op.projection = d.projection := by
  cases h : assocLookup d.batches batch with
  | some vid => rw [next_hit d verbose batch vid h]
  | none => rw [next_miss d verbose batch h]

theorem next_preserves_cache (d : SimpleProjectOp) (verbose : Bool) (batch b0 : BatchId)
    (vid0 : Nat) (h : assocLookup d.batches b0 = some vid0) :
    assocLookup (Next d verbose batch).op.batches b0 = some vid0 := by
  cases hc : assocLookup d.batches batch with
  | some vid =>
      rw [next_hit d verbose batch vid hc]
      exact h
  | none =>
      rw [next_miss d verbose batch hc]
      have hne : batch ≠ b0 := by
        intro he
        rw [he, h] at hc
        cases hc
      rw [assocLookup_cons, if_neg hne]
      exact h

theorem next_caches_ret (d : SimpleProjectOp) (verbose : Bool) (batch : BatchId) :
    assocLookup (Next d verbose batch).op.batches batch = some (Next d verbose batch).retView := by
  cases hc : assocLookup d.batches batch with
  | some vid =>
      rw [next_hit d verbose batch vid hc]
      exact hc
  | none =>
      rw [next_miss d verbose batch hc]
      rw [assocLookup_cons, if_pos rfl]

/-! ### Run lemmas -/

theorem opAfter_nil (verbose : Bool) (d : SimpleProjectOp) : opAfter verbose d [] = d := rfl

theorem opAfter_cons (verbose : Bool) (d : SimpleProjectOp) (b : BatchId) (bs : List BatchId) :
    opAfter verbose d (b :: bs) = opAfter verbose (Next d verbose b).op bs := rfl

theorem opAfter_append (verbose : Bool) (d : SimpleProjectOp) (l1 l2 : List BatchId) :
    opAfter verbose d (l1 ++ l2) = opAfter verbose (opAfter verbose d l1) l2 := by
  induction l1 generalizing d with
  | nil => rfl
  | cons b rest ih => simp [opAfter_cons, ih]

theorem opAfter_projection (verbose : Bool) (d : SimpleProjectOp) (bs : List BatchId) :
    (opAfter verbose d bs).projection = d.projection := by
  induction bs generalizing d with
  | nil => rfl
  | cons b rest ih => rw [opAfter_cons, ih, next_projection]

theorem opAfter_preserves_cache (verbose : Bool) (d : SimpleProjectOp) (bs : List BatchId)
    (b0 : BatchId) (vid0 : Nat) (h : assocLookup d.batches b0 = some vid0) :
    assocLookup (opAfter verbose d bs).batches b0 = some vid0 := by
  induction bs generalizing d with
  | nil => exact h
  | cons b rest ih =>
      rw [opAfter_cons]
      exact ih _ (next_preserves_cache d verbose b b0 vid0 h)

theorem get?_eq_some_getD (l : List Nat) (t : Nat) (ht : t < l.length) :
    l.get? t = some (l.getD t 0) := by
  rw [List.getD_eq_get?]
  cases h : l.get? t with
  | none =>
      have := List.get?_eq_none.mp h
      omega
  | some x => simp

theorem opAt_succ (verbose : Bool) (d : SimpleProjectOp) (bs : List BatchId) (t : Nat)
    (ht : t < bs.length) :
    opAt verbose d bs (t + 1) = (pullAt verbose d bs t).op := by
  unfold opAt pullAt
  rw [List.take_succ, opAfter_append]
  have hx : bs[t]? = some (bs.getD t 0) := by
    rw [← List.get?_eq_getElem?]
    exact get?_eq_some_getD bs t ht
  rw [hx]
  rfl

theorem opAt_as_extension (verbose : Bool) (d : SimpleProjectOp) (bs : List BatchId)
    (t t' : Nat) (h : t ≤ t') :
    opAt verbose d bs t' = opAfter verbose (opAt verbose d bs t) (List.drop t (List.take t' bs)) := by
  unfold opAt
  conv_lhs => rw [← List.take_append_drop t (List.take t' bs)]
  rw [opAfter_append, List.take_take, Nat.min_eq_left h]

theorem opAt_preserves_cache (verbose : Bool) (d : SimpleProjectOp) (bs : List BatchId)
    (t t' : Nat) (h : t ≤ t') (b0 : BatchId) (vid0 : Nat)
    (hc : assocLookup (opAt verbose d bs t).batches b0 = some vid0) :
    assocLookup (opAt verbose d bs t').batches b0 = some vid0 := by
  rw [opAt_as_extension verbose d bs t t' h]
  exact opAfter_preserves_cache _ _ _ _ _ hc

theorem pullAt_cached (verbose : Bool) (d : SimpleProjectOp) (bs : List BatchId) (t : Nat)
    (ht : t < bs.length) :
    assocLookup (opAt verbose d bs (t + 1)).batches (bs.getD t 0)
      = some (pullAt verbose d bs t).retView := by
  rw [opAt_succ verbose d bs t ht]
  exact next_caches_ret _ _ _

/-! ### Well-formedness of the operator state -/

theorem wf_init (input : Nat) (P : List Nat) : WF (newSimpleProjectOpState input P) := by
  refine ⟨List.nodup_nil, List.nodup_nil, ?_, ?_, ?_⟩
  · intro vid hv
    simp [newSimpleProjectOpState] at hv
  · intro b vid hb
    simp [newSimpleProjectOpState, assocLookup] at hb
  · intro b1 b2 vid h1 h2
    simp [newSimpleProjectOpState, assocLookup] at h1

theorem cached_vid_lt (d : SimpleProjectOp) (hwf : WF d) (b : BatchId) (vid : Nat)
    (h : assocLookup d.batches b = some vid) : vid < d.nextViewId := by
  obtain ⟨v, hv, -, -⟩ := hwf.2.2.2.1 b vid h
  exact hwf.2.2.1 vid (assocLookup_mem_keys d.views vid v hv)

theorem wf_next (d : SimpleProjectOp) (verbose : Bool) (batch : BatchId) (hwf : WF d) :
    WF (Next d verbose batch).op := by
  obtain ⟨hbk, hvk, hvb, hcoh, hinj⟩ := hwf
  cases hc : assocLookup d.batches batch with
  | some vid =>
      rw [next_hit d verbose batch vid hc]
      refine ⟨hbk, ?_, ?_, ?_, hinj⟩
      · rw [updateAssoc_keys]
        exact hvk
      · intro vid' hv'
        rw [updateAssoc_keys] at hv'
        exact hvb vid' hv'
      · intro b0 vid0 hb0
        obtain ⟨v0, hv0, hp0, hbt0⟩ := hcoh b0 vid0 hb0
        by_cases hvv : vid0 = vid
        · subst hvv
          have hb0b : b0 = batch := hinj b0 batch vid0 hb0 hc
          refine ⟨repoint batch v0, ?_, hp0, ?_⟩
          · rw [assocLookup_updateAssoc_self, hv0]
            rfl
          · rw [hb0b]
            rfl
        · refine ⟨v0, ?_, hp0, hbt0⟩
          rw [assocLookup_updateAssoc_ne _ _ _ _ hvv]
          exact hv0
  | none =>
      rw [next_miss d verbose batch hc]
      dsimp only
      have hnv : d.nextViewId ∉ d.views.map Prod.fst := by
        intro hmem
        exact absurd (hvb _ hmem) (by omega)
      have hviews :
          updateAssoc ((d.nextViewId, newProjectionBatch d.projection) :: d.views)
              d.nextViewId (repoint batch)
            = (d.nextViewId, repoint batch (newProjectionBatch d.projection)) :: d.views := by
        rw [updateAssoc_cons_self, updateAssoc_of_not_mem _ _ _ hnv]
      rw [hviews]
      have hbm : batch ∉ d.batches.map Prod.fst := by
        intro hmem
        obtain ⟨v, hv⟩ := mem_keys_assocLookup _ _ hmem
        rw [hv] at hc
        cases hc
      refine ⟨?_, ?_, ?_, ?_, ?_⟩
      · rw [List.map_cons]
        exact List.nodup_cons.mpr ⟨hbm, hbk⟩
      · rw [List.map_cons]
        exact List.nodup_cons.mpr ⟨hnv, hvk⟩
      · intro vid' hv'
        dsimp only
        simp only [List.map_cons, List.mem_cons] at hv'
        rcases hv' with hv' | hv'
        · omega
        · have := hvb vid' hv'
          omega
      · intro b0 vid0 hb0
        rw [assocLookup_cons] at hb0
        by_cases hbb : batch = b0
        · subst hbb
          rw [if_pos rfl] at hb0
          cases hb0
          refine ⟨repoint batch (newProjectionBatch d.projection), ?_, rfl, rfl⟩
          rw [assocLookup_cons, if_pos rfl]
        · rw [if_neg hbb] at hb0
          obtain ⟨v0, hv0, hp0, hbt0⟩ := hcoh b0 vid0 hb0
          have hvid0 : vid0 < d.nextViewId :=
            hvb vid0 (assocLookup_mem_keys d.views vid0 v0 hv0)
          refine ⟨v0, ?_, hp0, hbt0⟩
          rw [assocLookup_cons, if_neg (by omega)]
          exact hv0
      · intro b1 b2 vid hb1 hb2
        rw [assocLookup_cons] at hb1 hb2
        by_cases h1 : batch = b1 <;> by_cases h2 : batch = b2
        · subst h1
          exact h2
        · rw [if_pos h1] at hb1
          rw [if_neg h2] at hb2
          cases hb1
          have := cached_vid_lt d ⟨hbk, hvk, hvb, hcoh, hinj⟩ b2 _ hb2
          omega
        · rw [if_neg h1] at hb1
          rw [if_pos h2] at hb2
          cases hb2
          have := cached_vid_lt d ⟨hbk, hvk, hvb, hcoh, hinj⟩ b1 _ hb1
          omega
        · rw [if_neg h1] at hb1
          rw [if_neg h2] at hb2
          exact hinj b1 b2 vid hb1 hb2

theorem wf_opAfter (verbose : Bool) (d : SimpleProjectOp) (bs : List BatchId) (hwf : WF d) :
    WF (opAfter verbose d bs) := by
  induction bs generalizing d with
  | nil => exact hwf
  | cons b rest ih =>
      rw [opAfter_cons]
      exact ih _ (wf_next d verbose b hwf)

/-- The view returned by a pull, as recorded in the post-pull state: it
exists, carries the operator's projection and wraps exactly the batch
just pulled. -/
theorem next_ret_view (d : SimpleProjectOp) (verbose : Bool) (batch : BatchId) (hwf : WF d) :
    ∃ v, assocLookup (Next d verbose batch).op.views (Next d verbose batch).retView = some v
      ∧ v.projection = d.projection ∧ v.batch = some batch := by
  have hwf' := wf_next d verbose batch hwf
  have hcached := next_caches_ret d verbose batch
  obtain ⟨v, hv, hp, hb⟩ := hwf'.2.2.2.1 _ _ hcached
  exact ⟨v, hv, by rw [hp, next_projection], hb⟩

/-! ### Logging threshold lemmas -/

theorem thrInv_init (input : Nat) (P : List Nat) : ThrInv (newSimpleProjectOpState input P) :=
  ⟨by simp [newSimpleProjectOpState], 0, by simp [newSimpleProjectOpState]⟩

theorem thrInv_next (d : SimpleProjectOp) (verbose : Bool) (b : BatchId) (h : ThrInv d) :
    ThrInv (Next d verbose b).op := by
  obtain ⟨hlt, k, hk⟩ := h
  cases hc : assocLookup d.batches b with
  | some vid =>
      rw [next_hit d verbose b vid hc]
      exact ⟨hlt, k, hk⟩
  | none =>
      rw [next_miss d verbose b hc]
      dsimp only
      have hpos : 0 < d.numBatchesLoggingThreshold := by
        rw [hk]
        positivity
      by_cases he : d.batches.length + 1 = d.numBatchesLoggingThreshold
      · rw [if_pos he]
        refine ⟨by simp only [List.length_cons]; omega, k + 1, by rw [hk]; ring⟩
      · rw [if_neg he]
        refine ⟨by simp only [List.length_cons]; omega, k, hk⟩

theorem thrInv_opAfter (verbose : Bool) (d : SimpleProjectOp) (bs : List BatchId)
    (h : ThrInv d) : ThrInv (opAfter verbose d bs) := by
  induction bs generalizing d with
  | nil => exact h
  | cons b rest ih =>
      rw [opAfter_cons]
      exact ih _ (thrInv_next d verbose b h)

theorem next_thr_mono (d : SimpleProjectOp) (verbose : Bool) (b : BatchId) :
    d.numBatchesLoggingThreshold ≤ (Next d verbose b).op.numBatchesLoggingThreshold := by
  cases hc : assocLookup d.batches b with
  | some vid =>
      rw [next_hit d verbose b vid hc]
  | none =>
      rw [next_miss d verbose b hc]
      dsimp only
      by_cases he : d.batches.length + 1 = d.numBatchesLoggingThreshold
      · rw [if_pos he]
        omega
      · rw [if_neg he]

theorem opAfter_thr_mono (verbose : Bool) (d : SimpleProjectOp) (bs : List BatchId) :
    d.numBatchesLoggingThreshold ≤ (opAfter verbose d bs).numBatchesLoggingThreshold := by
  induction bs generalizing d with
  | nil => exact le_refl _
  | cons b rest ih =>
      rw [opAfter_cons]
      exact le_trans (next_thr_mono d verbose b) (ih _)

theorem next_logged_char (d : SimpleProjectOp) (verbose : Bool) (b : BatchId)
    (h : (Next d verbose b).logged = true) :
    assocLookup d.batches b = none ∧ verbose = true
    ∧ (Next d verbose b).op.batches.length = d.numBatchesLoggingThreshold
    ∧ (Next d verbose b).op.numBatchesLoggingThreshold = d.numBatchesLoggingThreshold * 2 := by
  cases hc : assocLookup d.batches b with
  | some vid =>
      rw [next_hit d verbose b vid hc] at h
      exact Bool.noConfusion h
  | none =>
      rw [next_miss d verbose b hc] at h ⊢
      dsimp only at h ⊢
      rw [Bool.and_eq_true, beq_iff_eq] at h
      obtain ⟨he, hv⟩ := h
      refine ⟨rfl, hv, by simpa using he, ?_⟩
      rw [if_pos he]

/-! ### Claim theorems: construction and the view interface -/

/-- Claim C3: `NewSimpleProjectOp` returns `input` itself exactly when the
projection is the identity permutation over `numInputCols` columns;
otherwise it returns a freshly allocated projection operator (empty
cache, copied projection, threshold 128). -/
theorem c3_identity_elision (input numInputCols : Nat) (P : List Nat) :
    (NewSimpleProjectOp input numInputCols P = Operator.source input
       ↔ isIdentityProjection numInputCols P)
    ∧ (¬ isIdentityProjection numInputCols P →
        NewSimpleProjectOp input numInputCols P
          = Operator.project (newSimpleProjectOpState input P)) := by
  by_cases hid : isIdentityProjection numInputCols P
  · have hc : ((numInputCols == P.length) && projectionIsRedundantFrom 0 P) = true :=
      (identity_cond_iff numInputCols P).mpr hid
    refine ⟨?_, fun hn => absurd hid hn⟩
    simp [NewSimpleProjectOp, hc, hid]
  · have hc : ((numInputCols == P.length) && projectionIsRedundantFrom 0 P) = false := by
      rcases Bool.eq_false_or_eq_true ((numInputCols == P.length) && projectionIsRedundantFrom 0 P)
        with h | h
      · exact absurd ((identity_cond_iff numInputCols P).mp h) hid
      · exact h
    constructor
    · simp [NewSimpleProjectOp, hc, hid]
    · intro _
      simp [NewSimpleProjectOp, hc]

/-- Witness for C3 at a non-identity projection (`n = 1`, `P = [1]`): a
new operator is allocated. -/
theorem c3_identity_elision_witness :
    NewSimpleProjectOp 0 1 [1] = Operator.project (newSimpleProjectOpState 0 [1]) :=
  (c3_identity_elision 0 1 [1]).2 (by decide)

/-- Claim C10: with `numInputCols = 0` and an empty projection list the
identity check holds vacuously and `NewSimpleProjectOp` returns the input
itself; no operator is allocated. -/
theorem c10_zero_width_elision (input : Nat) :
    NewSimpleProjectOp input 0 [] = Operator.source input := rfl

/-- Claim C5: `ColVecs` on any view always fails with the
`VectorizedInternalPanic` condition and never returns normally. -/
theorem c5_colvecs_always_fails (v : ProjectingBatch) :
    ColVecs v = Except.error
        (ExecError.vectorizedInternalPanic "projectingBatch does not support ColVecs()")
    ∧ ∀ xs : List Vec, ColVecs v ≠ Except.ok xs :=
  ⟨rfl, fun _ h => Except.noConfusion h⟩

/-- Claim C8: a view's `Width` is the length of its own projection list
(independent of the wrapped batch and of any batch heap). -/
theorem c8_width_eq_projection_length (v : ProjectingBatch) :
    Width v = v.projection.length := rfl

/-- Claim C6: after `AppendCol t` on a view of width `w` wrapping batch
`b`, the width is `w + 1`, the wrapped batch gained exactly one column of
type `t` at its end, the projection list gained the wrapped batch's new
last column index, and `ColVec` at position `w` returns the newly
appended column vector. -/
theorem c6_append_column (h : BatchHeap) (freshVec : Vec) (v : ProjectingBatch)
    (b : BatchId) (t : ColType) (hb : v.batch = some b) :
    Width (AppendCol h freshVec v t).2 = Width v + 1
    ∧ (AppendCol h freshVec v t).1 b = h b ++ [⟨t, freshVec⟩]
    ∧ (AppendCol h freshVec v t).2.projection = v.projection ++ [(h b).length]
    ∧ ColVec (AppendCol h freshVec v t).1 (AppendCol h freshVec v t).2 (Width v)
        = some freshVec := by
  have hheap : batchAppendCol h freshVec b t b = h b ++ [⟨t, freshVec⟩] := by
    simp [batchAppendCol, updateFn]
  have hwidth : batchWidth (batchAppendCol h freshVec b t) b - 1 = (h b).length := by
    simp [batchWidth, hheap]
  have happ : AppendCol h freshVec v t =
      (batchAppendCol h freshVec b t,
        { v with projection := v.projection ++ [(h b).length] }) := by
    unfold AppendCol
    rw [hb]
    simp [hwidth]
  refine ⟨?_, ?_, ?_, ?_⟩
  · simp [happ, Width]
  · simp [happ, hheap]
  · simp [happ]
  · simp only [happ, ColVec, Width, hb]
    rw [List.get?_concat_length]
    simp [batchColVec, hheap, List.get?_concat_length]

theorem colVec_some (h : BatchHeap) (v : ProjectingBatch) (b : BatchId)
    (hb : v.batch = some b) (i : Nat) :
    ColVec h v i = (v.projection.get? i).bind fun j => batchColVec h b j := by
  unfold ColVec
  rw [hb]

/-- Claim C1: on every pull of a run, the returned view carries the
operator's projection list `P` and wraps exactly the batch the upstream
returned on that pull, so `ColVec` at output position `i < len P` is
reference-equal (as a vector identity) to the underlying batch's column
`P[i]`; repeated indices in `P` alias the same vector. -/
theorem c1_order_selection (input : Nat) (P : List Nat) (verbose : Bool) (bs : List BatchId)
    (t : Nat) (_ht : t < bs.length) (h : BatchHeap) (i : Nat) (hi : i < P.length) :
    ∃ v, assocLookup (pullAt verbose (newSimpleProjectOpState input P) bs t).op.views
            (pullAt verbose (newSimpleProjectOpState input P) bs t).retView = some v
      ∧ v.projection = P
      ∧ v.batch = some (bs.getD t 0)
      ∧ ColVec h v i = batchColVec h (bs.getD t 0) (P.getD i 0)
      ∧ ∀ j, j < P.length → P.getD i 0 = P.getD j 0 → ColVec h v i = ColVec h v j := by
  have hwf : WF (opAt verbose (newSimpleProjectOpState input P) bs t) :=
    wf_opAfter verbose _ _ (wf_init input P)
  have hproj : (opAt verbose (newSimpleProjectOpState input P) bs t).projection = P :=
    opAfter_projection _ _ _
  obtain ⟨v, hv, hp, hb⟩ := next_ret_view _ verbose (bs.getD t 0) hwf
  rw [hproj] at hp
  have hcol : ∀ j, j < P.length → ColVec h v j = batchColVec h (bs.getD t 0) (P.getD j 0) := by
    intro j hj
    rw [colVec_some h v _ hb j, hp, get?_eq_some_getD P j hj]
    rfl
  refine ⟨v, hv, hp, hb, hcol i hi, ?_⟩
  intro j hj hij
  rw [hcol i hi, hcol j hj, hij]

/-- Witness for C1: projection `[0, 0]` over a one-pull run returning
batch 3; both output positions alias batch 3's column 0. -/
theorem c1_order_selection_witness :
    ∃ v, assocLookup (pullAt false (newSimpleProjectOpState 0 [0, 0]) [3] 0).op.views
            (pullAt false (newSimpleProjectOpState 0 [0, 0]) [3] 0).retView = some v
      ∧ v.projection = [0, 0]
      ∧ v.batch = some (List.getD [3] 0 0)
      ∧ ColVec witnessHeap v 0 = batchColVec witnessHeap (List.getD [3] 0 0) (List.getD [0, 0] 0 0)
      ∧ ∀ j, j < (List.length [0, 0]) → List.getD [0, 0] 0 0 = List.getD [0, 0] j 0 →
          ColVec witnessHeap v 0 = ColVec witnessHeap v j :=
  c1_order_selection 0 [0, 0] false [3] 0 (by decide) witnessHeap 0 (by decide)

theorem next_miss_views (d : SimpleProjectOp) (verbose : Bool) (b : BatchId)
    (hkeys : ∀ vid ∈ d.views.map Prod.fst, vid < d.nextViewId)
    (hc : assocLookup d.batches b = none) :
    (Next d verbose b).op.views
      = (d.nextViewId, repoint b (newProjectionBatch d.projection)) :: d.views := by
  rw [next_miss d verbose b hc]
  dsimp only
  have hnv : d.nextViewId ∉ d.views.map Prod.fst := fun hmem => absurd (hkeys _ hmem) (by omega)
  rw [updateAssoc_cons_self, updateAssoc_of_not_mem _ _ _ hnv]

/-- Claim C2: along any run of pulls from a fresh operator, pulls of the
same batch identity return the same view (by identity); a pull of a seen
identity allocates nothing; a pull of an unseen identity adds exactly one
cache entry and leaves all previously cached views untouched; the cache
keys stay distinct and the cache never shrinks. -/
theorem c2_identity_cache (input : Nat) (P : List Nat) (verbose : Bool) (bs : List BatchId) :
    (∀ ta tb, ta < bs.length → tb < bs.length → bs.getD ta 0 = bs.getD tb 0 →
      (pullAt verbose (newSimpleProjectOpState input P) bs ta).retView
        = (pullAt verbose (newSimpleProjectOpState input P) bs tb).retView)
    ∧ (∀ ta tb, ta < tb → tb < bs.length → bs.getD ta 0 = bs.getD tb 0 →
      (pullAt verbose (newSimpleProjectOpState input P) bs tb).op.nextViewId
          = (opAt verbose (newSimpleProjectOpState input P) bs tb).nextViewId
        ∧ (pullAt verbose (newSimpleProjectOpState input P) bs tb).op.views.length
          = (opAt verbose (newSimpleProjectOpState input P) bs tb).views.length)
    ∧ (∀ t, assocLookup (opAt verbose (newSimpleProjectOpState input P) bs t).batches
          (bs.getD t 0) = none →
        (pullAt verbose (newSimpleProjectOpState input P) bs t).op.batches
          = (bs.getD t 0, (opAt verbose (newSimpleProjectOpState input P) bs t).nextViewId)
              :: (opAt verbose (newSimpleProjectOpState input P) bs t).batches
        ∧ ∀ b0 vid0,
            assocLookup (opAt verbose (newSimpleProjectOpState input P) bs t).batches b0
              = some vid0 →
            assocLookup (pullAt verbose (newSimpleProjectOpState input P) bs t).op.batches b0
                = some vid0
              ∧ assocLookup (pullAt verbose (newSimpleProjectOpState input P) bs t).op.views vid0
                = assocLookup (opAt verbose (newSimpleProjectOpState input P) bs t).views vid0)
    ∧ (∀ t, ((opAt verbose (newSimpleProjectOpState input P) bs t).batches.map Prod.fst).Nodup)
    ∧ (∀ tc td b0 vid0, tc ≤ td →
        assocLookup (opAt verbose (newSimpleProjectOpState input P) bs tc).batches b0 = some vid0 →
        assocLookup (opAt verbose (newSimpleProjectOpState input P) bs td).batches b0
          = some vid0) := by
  have hwfAt : ∀ t, WF (opAt verbose (newSimpleProjectOpState input P) bs t) :=
    fun _ => wf_opAfter _ _ _ (wf_init input P)
  have key : ∀ ta tb, ta < tb → tb < bs.length → bs.getD ta 0 = bs.getD tb 0 →
      assocLookup (opAt verbose (newSimpleProjectOpState input P) bs tb).batches (bs.getD tb 0)
        = some (pullAt verbose (newSimpleProjectOpState input P) bs ta).retView := by
    intro ta tb hab htb hsame
    have hta : ta < bs.length := lt_of_lt_of_le hab (le_of_lt htb)
    have h1 := pullAt_cached verbose (newSimpleProjectOpState input P) bs ta hta
    have h2 := opAt_preserves_cache verbose (newSimpleProjectOpState input P) bs (ta + 1) tb
      hab _ _ h1
    rw [hsame] at h2
    exact h2
  refine ⟨?_, ?_, ?_, fun t => (hwfAt t).1, ?_⟩
  · intro ta tb hta htb hsame
    rcases Nat.lt_trichotomy ta tb with h | h | h
    · have hk := key ta tb h htb hsame
      unfold pullAt
      rw [next_hit _ verbose _ _ hk]
      rfl
    · rw [h]
    · have hk := key tb ta h hta hsame.symm
      unfold pullAt
      rw [next_hit _ verbose _ _ hk]
      rfl
  · intro ta tb hab htb hsame
    have hk := key ta tb hab htb hsame
    unfold pullAt
    rw [next_hit _ verbose _ _ hk]
    refine ⟨rfl, ?_⟩
    dsimp only
    simp [updateAssoc]
  · intro t hm
    constructor
    · unfold pullAt
      rw [next_miss _ _ _ hm]
    · intro b0 vid0 hb0
      have hbne : bs.getD t 0 ≠ b0 := by
        intro he
        rw [he, hb0] at hm
        cases hm
      constructor
      · unfold pullAt
        rw [next_miss _ _ _ hm]
        dsimp only
        rw [assocLookup_cons, if_neg hbne]
        exact hb0
      · have hvid0 := cached_vid_lt _ (hwfAt t) b0 vid0 hb0
        unfold pullAt
        rw [next_miss_views _ verbose _ (hwfAt t).2.2.1 hm]
        rw [assocLookup_cons, if_neg (by omega)]
  · intro tc td b0 vid0 hle hc
    exact opAt_preserves_cache verbose _ bs tc td hle b0 vid0 hc

/-- Witness for C2 on the run `[5, 6, 5]`: pulls 0 and 2 of batch 5
return the same view; pull 2 allocates nothing; the miss on batch 6 at
pull 1 adds one entry and leaves batch 5's view untouched; keys stay
distinct and batch 5's entry persists to the end. -/
theorem c2_identity_cache_witness :
    ((pullAt false (newSimpleProjectOpState 0 [0]) [5, 6, 5] 0).retView
      = (pullAt false (newSimpleProjectOpState 0 [0]) [5, 6, 5] 2).retView)
    ∧ ((pullAt false (newSimpleProjectOpState 0 [0]) [5, 6, 5] 2).op.nextViewId
        = (opAt false (newSimpleProjectOpState 0 [0]) [5, 6, 5] 2).nextViewId
      ∧ (pullAt false (newSimpleProjectOpState 0 [0]) [5, 6, 5] 2).op.views.length
        = (opAt false (newSimpleProjectOpState 0 [0]) [5, 6, 5] 2).views.length)
    ∧ ((pullAt false (newSimpleProjectOpState 0 [0]) [5, 6, 5] 1).op.batches
        = (List.getD [5, 6, 5] 1 0,
            (opAt false (newSimpleProjectOpState 0 [0]) [5, 6, 5] 1).nextViewId)
            :: (opAt false (newSimpleProjectOpState 0 [0]) [5, 6, 5] 1).batches)
    ∧ (assocLookup (pullAt false (newSimpleProjectOpState 0 [0]) [5, 6, 5] 1).op.batches 5
        = some 0
      ∧ assocLookup (pullAt false (newSimpleProjectOpState 0 [0]) [5, 6, 5] 1).op.views 0
        = assocLookup (opAt false (newSimpleProjectOpState 0 [0]) [5, 6, 5] 1).views 0)
    ∧ (((opAt false (newSimpleProjectOpState 0 [0]) [5, 6, 5] 3).batches.map Prod.fst).Nodup)
    ∧ (assocLookup (opAt false (newSimpleProjectOpState 0 [0]) [5, 6, 5] 3).batches 5
        = some 0) :=
  ⟨(c2_identity_cache 0 [0] false [5, 6, 5]).1 0 2 (by decide) (by decide) (by decide),
   (c2_identity_cache 0 [0] false [5, 6, 5]).2.1 0 2 (by decide) (by decide) (by decide),
   ((c2_identity_cache 0 [0] false [5, 6, 5]).2.2.1 1 (by decide)).1,
   ((c2_identity_cache 0 [0] false [5, 6, 5]).2.2.1 1 (by decide)).2 5 0 (by decide),
   (c2_identity_cache 0 [0] false [5, 6, 5]).2.2.2.1 3,
   (c2_identity_cache 0 [0] false [5, 6, 5]).2.2.2.2 1 3 5 0 (by decide) (by decide)⟩

/-- Claim C7: the logging threshold starts at 128; a cache hit changes
nothing and logs nothing; a miss logs (when verbose) exactly when the new
cache size equals the threshold and then doubles the threshold; a log
therefore only fires at cache sizes 128 · 2^k, with the threshold moved
to twice that size, and two logs in one run happen at strictly
increasing cache sizes — at most once per threshold value. -/
theorem c7_logging_threshold (input : Nat) (P : List Nat) (verbose : Bool) (bs : List BatchId) :
    (newSimpleProjectOpState input P).numBatchesLoggingThreshold = 128
    ∧ (∀ t vid, assocLookup (opAt verbose (newSimpleProjectOpState input P) bs t).batches
          (bs.getD t 0) = some vid →
        (pullAt verbose (newSimpleProjectOpState input P) bs t).logged = false
        ∧ (pullAt verbose (newSimpleProjectOpState input P) bs t).op.numBatchesLoggingThreshold
          = (opAt verbose (newSimpleProjectOpState input P) bs t).numBatchesLoggingThreshold)
    ∧ (∀ t, assocLookup (opAt verbose (newSimpleProjectOpState input P) bs t).batches
          (bs.getD t 0) = none →
        ((pullAt verbose (newSimpleProjectOpState input P) bs t).logged
          = (((pullAt verbose (newSimpleProjectOpState input P) bs t).op.batches.length
              == (opAt verbose (newSimpleProjectOpState input P) bs t).numBatchesLoggingThreshold)
             && verbose))
        ∧ (pullAt verbose (newSimpleProjectOpState input P) bs t).op.numBatchesLoggingThreshold
          = (if (pullAt verbose (newSimpleProjectOpState input P) bs t).op.batches.length
                = (opAt verbose (newSimpleProjectOpState input P) bs t).numBatchesLoggingThreshold
             then (opAt verbose (newSimpleProjectOpState input P) bs
                     t).numBatchesLoggingThreshold * 2
             else (opAt verbose (newSimpleProjectOpState input P) bs
                     t).numBatchesLoggingThreshold))
    ∧ (∀ t, (pullAt verbose (newSimpleProjectOpState input P) bs t).logged = true →
        verbose = true
        ∧ (∃ k, (pullAt verbose (newSimpleProjectOpState input P) bs t).op.batches.length
            = 128 * 2 ^ k)
        ∧ (pullAt verbose (newSimpleProjectOpState input P) bs t).op.numBatchesLoggingThreshold
          = 2 * (pullAt verbose (newSimpleProjectOpState input P) bs t).op.batches.length)
    ∧ (∀ t1 t2, t1 < t2 → t2 < bs.length →
        (pullAt verbose (newSimpleProjectOpState input P) bs t1).logged = true →
        (pullAt verbose (newSimpleProjectOpState input P) bs t2).logged = true →
        (pullAt verbose (newSimpleProjectOpState input P) bs t1).op.batches.length
          < (pullAt verbose (newSimpleProjectOpState input P) bs t2).op.batches.length) := by
  have hinv : ∀ t, ThrInv (opAt verbose (newSimpleProjectOpState input P) bs t) :=
    fun _ => thrInv_opAfter _ _ _ (thrInv_init input P)
  refine ⟨rfl, ?_, ?_, ?_, ?_⟩
  · intro t vid hc
    unfold pullAt
    rw [next_hit _ verbose _ _ hc]
    exact ⟨rfl, rfl⟩
  · intro t hc
    unfold pullAt
    rw [next_miss _ verbose _ hc]
    dsimp only
    exact ⟨rfl, rfl⟩
  · intro t hl
    unfold pullAt at hl ⊢
    obtain ⟨-, hv, hsize, hthr⟩ := next_logged_char _ verbose _ hl
    obtain ⟨-, k, hk⟩ := hinv t
    refine ⟨hv, ⟨k, by rw [hsize, hk]⟩, ?_⟩
    rw [hthr, hsize]
    ring
  · intro t1 t2 h12 ht2 hl1 hl2
    unfold pullAt at hl1 hl2 ⊢
    have ht1 : t1 < bs.length := lt_trans h12 ht2
    obtain ⟨-, -, hsize1, hthr1⟩ := next_logged_char _ verbose _ hl1
    obtain ⟨-, -, hsize2, -⟩ := next_logged_char _ verbose _ hl2
    obtain ⟨-, k1, hk1⟩ := hinv t1
    have hpos : 0 < (opAt verbose (newSimpleProjectOpState input P) bs
        t1).numBatchesLoggingThreshold := by
      rw [hk1]
      positivity
    have hstep : opAt verbose (newSimpleProjectOpState input P) bs (t1 + 1)
        = (Next (opAt verbose (newSimpleProjectOpState input P) bs t1) verbose
            (bs.getD t1 0)).op :=
      opAt_succ verbose _ bs t1 ht1
    have hmono : (opAt verbose (newSimpleProjectOpState input P) bs
          (t1 + 1)).numBatchesLoggingThreshold
        ≤ (opAt verbose (newSimpleProjectOpState input P) bs
            t2).numBatchesLoggingThreshold := by
      rw [opAt_as_extension verbose _ bs (t1 + 1) t2 h12]
      exact opAfter_thr_mono _ _ _
    rw [hstep, hthr1] at hmono
    omega

set_option maxRecDepth 100000 in
/-- Witness for C7 on a 257-pull run: the threshold starts at 128; the
final pull (batch 0 again) is a hit that logs nothing; pull 0 is a miss;
the misses completing cache sizes 128 (pull 127) and 256 (pull 255) both
log, at strictly increasing sizes. -/
theorem c7_logging_threshold_witness :
    (newSimpleProjectOpState 0 [0]).numBatchesLoggingThreshold = 128
    ∧ ((pullAt true (newSimpleProjectOpState 0 [0]) c7WitnessRun 256).logged = false
      ∧ (pullAt true (newSimpleProjectOpState 0 [0]) c7WitnessRun 256).op.numBatchesLoggingThreshold
        = (opAt true (newSimpleProjectOpState 0 [0]) c7WitnessRun 256).numBatchesLoggingThreshold)
    ∧ ((pullAt true (newSimpleProjectOpState 0 [0]) c7WitnessRun 0).logged
        = (((pullAt true (newSimpleProjectOpState 0 [0]) c7WitnessRun 0).op.batches.length
            == (opAt true (newSimpleProjectOpState 0 [0]) c7WitnessRun
                  0).numBatchesLoggingThreshold) && true))
    ∧ (true = true
      ∧ (∃ k, (pullAt true (newSimpleProjectOpState 0 [0]) c7WitnessRun 127).op.batches.length
          = 128 * 2 ^ k)
      ∧ (pullAt true (newSimpleProjectOpState 0 [0]) c7WitnessRun
            127).op.numBatchesLoggingThreshold
        = 2 * (pullAt true (newSimpleProjectOpState 0 [0]) c7WitnessRun 127).op.batches.length)
    ∧ ((pullAt true (newSimpleProjectOpState 0 [0]) c7WitnessRun 127).op.batches.length
        < (pullAt true (newSimpleProjectOpState 0 [0]) c7WitnessRun 255).op.batches.length) :=
  ⟨(c7_logging_threshold 0 [0] true c7WitnessRun).1,
   (c7_logging_threshold 0 [0] true c7WitnessRun).2.1 256 0 (by decide),
   ((c7_logging_threshold 0 [0] true c7WitnessRun).2.2.1 0 (by decide)).1,
   (c7_logging_threshold 0 [0] true c7WitnessRun).2.2.2.1 127 (by decide),
   (c7_logging_threshold 0 [0] true c7WitnessRun).2.2.2.2 127 255 (by decide) (by decide)
     (by decide) (by decide)⟩

/-- Claim C4: on every pull the returned view's wrapped-batch reference is
set to the batch just pulled; on a cache hit the same cached view is
returned repointed, its projection list (whatever it has grown to)
unchanged. -/
theorem c4_repoint_on_pull (d : SimpleProjectOp) (verbose : Bool) (b : BatchId) :
    (assocLookup d.batches b = none →
      ∃ pv, assocLookup (Next d verbose b).op.views (Next d verbose b).retView = some pv
        ∧ pv.batch = some b ∧ pv.projection = d.projection)
    ∧ (∀ vid0 pv0, assocLookup d.batches b = some vid0 → assocLookup d.views vid0 = some pv0 →
        (Next d verbose b).retView = vid0
        ∧ assocLookup (Next d verbose b).op.views vid0 = some (repoint b pv0)
        ∧ (repoint b pv0).batch = some b
        ∧ (repoint b pv0).projection = pv0.projection) := by
  constructor
  · intro hc
    rw [next_miss d verbose b hc]
    dsimp only
    refine ⟨repoint b (newProjectionBatch d.projection), ?_, rfl, rfl⟩
    rw [updateAssoc_cons_self, assocLookup_cons, if_pos rfl]
  · intro vid0 pv0 hc hv
    rw [next_hit d verbose b vid0 hc]
    dsimp only
    refine ⟨rfl, ?_, rfl, rfl⟩
    rw [assocLookup_updateAssoc_self, hv]
    rfl

/-- Witness for C4: a miss (batch 7) creates a repointed view with the
operator's projection; a hit (batch 5) returns the cached view repointed
with its grown projection list intact. -/
theorem c4_repoint_on_pull_witness :
    (∃ pv, assocLookup (Next c4WitnessOp false 7).op.views (Next c4WitnessOp false 7).retView
            = some pv
        ∧ pv.batch = some 7 ∧ pv.projection = c4WitnessOp.projection)
    ∧ ((Next c4WitnessOp false 5).retView = 0
        ∧ assocLookup (Next c4WitnessOp false 5).op.views 0
            = some (repoint 5 { batch := some 5, projection := [0, 3] })
        ∧ (repoint 5 ({ batch := some 5, projection := [0, 3] } : ProjectingBatch)).batch = some 5
        ∧ (repoint 5 ({ batch := some 5, projection := [0, 3] } : ProjectingBatch)).projection
            = ({ batch := some 5, projection := [0, 3] } : ProjectingBatch).projection) :=
  ⟨(c4_repoint_on_pull c4WitnessOp false 7).1 rfl,
   (c4_repoint_on_pull c4WitnessOp false 5).2 0 { batch := some 5, projection := [0, 3] } rfl rfl⟩

/-- Witness for C6: appending a column of type 1 with fresh vector 7 to a
one-column view wrapping batch 3. -/
theorem c6_append_column_witness :
    Width (AppendCol witnessHeap 7 witnessView 1).2 = Width witnessView + 1
    ∧ (AppendCol witnessHeap 7 witnessView 1).1 3 = witnessHeap 3 ++ [⟨1, 7⟩]
    ∧ (AppendCol witnessHeap 7 witnessView 1).2.projection
        = witnessView.projection ++ [(witnessHeap 3).length]
    ∧ ColVec (AppendCol witnessHeap 7 witnessView 1).1 (AppendCol witnessHeap 7 witnessView 1).2
        (Width witnessView) = some 7 :=
  c6_append_column witnessHeap 7 witnessView 3 1 rfl

/-- Claim C9: the projection slice is defensively copied at construction.
Whatever the caller later writes into its own buffer, the operator's
stored slice still holds the contents the caller's slice had at
construction, and every later pull behaves as if built from those
original contents. -/
theorem c9_defensive_copy (h : SliceHeap) (input numInputCols projSlice : Nat)
    (hs : projSlice < h.fresh) (opRef : SimpleProjectOpRef) (Q : List Nat)
    (hbuild : (NewSimpleProjectOpOnHeap h input numInputCols projSlice).2 = some opRef) :
    opRef.projSlice ≠ projSlice
    ∧ (writeSlice (NewSimpleProjectOpOnHeap h input numInputCols projSlice).1 projSlice Q).slices
        opRef.projSlice = h.slices projSlice
    ∧ ∀ verbose bs t,
        pullAt verbose (newSimpleProjectOpState input
            ((writeSlice (NewSimpleProjectOpOnHeap h input numInputCols projSlice).1 projSlice
                Q).slices opRef.projSlice)) bs t
          = pullAt verbose (newSimpleProjectOpState input (h.slices projSlice)) bs t := by
  by_cases hc : ((numInputCols == (h.slices projSlice).length)
      && projectionIsRedundantFrom 0 (h.slices projSlice)) = true
  · rw [NewSimpleProjectOpOnHeap] at hbuild
    rw [if_pos hc] at hbuild
    cases hbuild
  · have hres : NewSimpleProjectOpOnHeap h input numInputCols projSlice
        = ((makeCopySlice h (h.slices projSlice)).1,
           some { input := input, projSlice := (makeCopySlice h (h.slices projSlice)).2 }) := by
      rw [NewSimpleProjectOpOnHeap, if_neg hc]
    rw [hres] at hbuild ⊢
    have hop : opRef = { input := input, projSlice := h.fresh } := by
      injection hbuild with hb
      rw [← hb]
      rfl
    subst hop
    have hne : h.fresh ≠ projSlice := by omega
    have hread : (writeSlice (makeCopySlice h (h.slices projSlice)).1 projSlice Q).slices h.fresh
        = h.slices projSlice := by
      rw [writeSlice, makeCopySlice]
      dsimp only
      rw [if_neg hne, if_pos rfl]
    exact ⟨hne, hread, fun verbose bs t => by rw [hread]⟩

/-- Witness for C9: building from slice 0 of `c9WitnessHeap`, then
overwriting that slice with `[9]`, leaves the operator's copied slice
holding the original `[1]` and pulls unaffected. -/
theorem c9_defensive_copy_witness :
    (({ input := 0, projSlice := 1 } : SimpleProjectOpRef)).projSlice ≠ 0
    ∧ (writeSlice (NewSimpleProjectOpOnHeap c9WitnessHeap 0 1 0).1 0 [9]).slices
        (({ input := 0, projSlice := 1 } : SimpleProjectOpRef)).projSlice
      = c9WitnessHeap.slices 0
    ∧ ∀ verbose bs t,
        pullAt verbose (newSimpleProjectOpState 0
            ((writeSlice (NewSimpleProjectOpOnHeap c9WitnessHeap 0 1 0).1 0 [9]).slices
              (({ input := 0, projSlice := 1 } : SimpleProjectOpRef)).projSlice)) bs t
          = pullAt verbose (newSimpleProjectOpState 0 (c9WitnessHeap.slices 0)) bs t :=
  c9_defensive_copy c9WitnessHeap 0 1 0 (by decide) { input := 0, projSlice := 1 } [9] rfl

end SimpleProject
